import Mathlib

/-!
Verification development for the Topology Graph Engine of
`AutomatedMonitoring/NetworkMonitor/modules/topology_manager.py`.

The Python module keeps three `networkx.Graph` objects (the published unified
`topology` plus per-layer `layer2_topology` / `layer3_topology`), a change
`history`, and an update-interval gate.  Below, each Python operation is
embedded as a pure Lean function over an explicit manager state; stateful
mutation becomes state passing, `time.time()` becomes an explicit `Int`
argument, and Python exceptions become `Except` / `Option` values.
-/

/-- `LinkType` enumeration (topology_manager.py lines 16-20). -/
inductive LinkType where
  | PHYSICAL
  | LOGICAL
  | VLAN
  | LAG
deriving Repr, DecidableEq

/-- `LayerType` enumeration (lines 22-25). -/
inductive LayerType where
  | L2
  | L3
  | L4
deriving Repr, DecidableEq

/-- Python exception kinds that the embedded code can raise. -/
inductive PyErr where
  | typeError
  | nodeNotFound
  | valueError
  | runtimeError
deriving Repr, DecidableEq

/-- The edge-attribute dictionary written by `_add_link` (lines 306-313):
keys `link_type`, `layer`, `source_interface`, `target_interface`,
`timestamp`.  `_add_link`'s callers pass no extra kwargs, so these five
keys are exactly the attributes every edge carries. -/
structure LinkData where
  link_type : LinkType
  layer : LayerType
  source_interface : String
  target_interface : String
  timestamp : Int
deriving Repr, DecidableEq

/-- Shallow embedding of an undirected `networkx.Graph`: a node list in
insertion order (no duplicates) and at most one attribute-carrying edge per
unordered node pair, in insertion order.  `V` is the (hashable) node type,
`E` the edge-attribute record. -/
structure Graph (V : Type) (E : Type) where
  nodes : List V
  edges : List ((V × V) × E)
deriving Repr, DecidableEq

/-- The empty graph (`nx.Graph()`, or the result of `.clear()`). -/
def Graph.empty {V E : Type} : Graph V E := ⟨[], []⟩

/-- Whether two (possibly differently oriented) node pairs name the same
undirected edge. -/
def sameEdgeB {V : Type} [DecidableEq V] (a b : V × V) : Bool :=
  decide ((a.1 = b.1 ∧ a.2 = b.2) ∨ (a.1 = b.2 ∧ a.2 = b.1))

/-- `nx.Graph.add_node`: appends the node if it is not already present. -/
def Graph.addNode {V E : Type} [DecidableEq V] (G : Graph V E) (v : V) : Graph V E :=
  if v ∈ G.nodes then G else { G with nodes := G.nodes ++ [v] }

/-- Whether the graph has an edge between `u` and `v` (either orientation);
embeds `G.has_edge(u, v)` / adjacency. -/
def Graph.adjB {V E : Type} [DecidableEq V] (G : Graph V E) (u v : V) : Bool :=
  G.edges.any (fun e => sameEdgeB (u, v) e.1)

/-- `nx.Graph.add_edge(u, v, **data)`: inserts both endpoints as nodes, and
either updates the attribute record of the existing undirected edge (the
caller always supplies all five attribute keys, so the update is a full
replacement) or appends a new edge. -/
def Graph.addEdge {V E : Type} [DecidableEq V] (G : Graph V E) (u v : V) (d : E) :
    Graph V E :=
  { nodes := ((G.addNode u).addNode v).nodes
    edges :=
      if G.edges.any (fun e => sameEdgeB (u, v) e.1) then
        G.edges.map (fun e => if sameEdgeB (u, v) e.1 then (e.1, d) else e)
      else G.edges ++ [((u, v), d)] }

/-- `nx.Graph.get_edge_data(u, v)` (orientation-insensitive lookup). -/
def Graph.getEdgeData {V E : Type} [DecidableEq V] (G : Graph V E) (k : V × V) :
    Option E :=
  (G.edges.find? (fun e => sameEdgeB k e.1)).map (fun e => e.2)

/-- `nx.Graph.remove_edge(u, v)` restricted to edge deletion (used for the
bridge characterisation). -/
def Graph.removeEdgeKey {V E : Type} [DecidableEq V] (G : Graph V E) (k : V × V) :
    Graph V E :=
  { G with edges := G.edges.filter (fun e => !sameEdgeB k e.1) }

/-- `nx.Graph.add_nodes_from` (node data dicts are empty here). -/
def Graph.addNodesFrom {V E : Type} [DecidableEq V] (G : Graph V E) (ns : List V) :
    Graph V E :=
  ns.foldl Graph.addNode G

/-- `nx.Graph.add_edges_from(other.edges(data=True))`. -/
def Graph.addEdgesFrom {V E : Type} [DecidableEq V] (G : Graph V E)
    (es : List ((V × V) × E)) : Graph V E :=
  es.foldl (fun g e => g.addEdge e.1.1 e.1.2 e.2) G

/-- Neighbours of `u`, from the edge list (either endpoint). -/
def Graph.neighbors {V E : Type} [DecidableEq V] (G : Graph V E) (u : V) : List V :=
  G.edges.filterMap (fun e =>
    if e.1.1 = u then some e.1.2
    else if e.1.2 = u then some e.1.1 else none)

/-- Well-formedness maintained by every `networkx` graph: edge endpoints are
registered nodes. -/
def Graph.Wf {V E : Type} (G : Graph V E) : Prop :=
  ∀ e ∈ G.edges, e.1.1 ∈ G.nodes ∧ e.1.2 ∈ G.nodes

/-- Graph-theoretic reachability: reflexive-transitive closure of adjacency. -/
def Reachable {V E : Type} [DecidableEq V] (G : Graph V E) (u v : V) : Prop :=
  Relation.ReflTransGen (fun a b => G.adjB a b = true) u v

/-- Modelled from the spec: `nx.bridges` (external library code) returns the
edges of the graph whose removal disconnects their endpoints — "edges whose
removal disconnects the graph (bridges)". -/
def IsBridge {V E : Type} [DecidableEq V] (G : Graph V E) (u v : V) : Prop :=
  G.adjB u v = true ∧ ¬ Reachable (G.removeEdgeKey (u, v)) u v

/-- The unified / per-layer topology graphs kept by `TopologyManager`. -/
abbrev TopoGraph := Graph String LinkData

/-- A Change Record (`changes` dict built by `_detect_topology_changes`,
lines 259-266): timestamp plus the five change categories. -/
structure ChangeRecord where
  timestamp : Int
  added_nodes : List String
  removed_nodes : List String
  added_links : List (String × String)
  removed_links : List (String × String)
  modified_links : List ((String × String) × LinkData × LinkData)
deriving Repr, DecidableEq

/-- The mutable fields of `TopologyManager` that the embedded operations
touch (lines 53-62).  `self.nodes` (the probe inventory) is irrelevant to
the graph algorithms and omitted; times are `Int` seconds. -/
structure ManagerState where
  topology : TopoGraph
  layer2_topology : TopoGraph
  layer3_topology : TopoGraph
  history : List ChangeRecord
  last_update : Int
  update_interval : Int
deriving Repr, DecidableEq

/-- A fresh manager (`__init__` with the default `update_interval` 3600). -/
def initState : ManagerState :=
  ⟨Graph.empty, Graph.empty, Graph.empty, [], 0, 3600⟩

/-- `TopologyManager._add_link` (lines 302-318): builds the five-key
attribute dict (`timestamp` is `time.time()` at the call, passed here as
`now`) and adds the edge to the L2 or L3 layer graph; any other layer value
falls through both branches, adding nothing and raising nothing. -/
def addLink (s : ManagerState) (source target : String) (link_type : LinkType)
    (layer : LayerType) (source_interface target_interface : String)
    (now : Int) : ManagerState :=
  let link_data : LinkData :=
    ⟨link_type, layer, source_interface, target_interface, now⟩
  if layer = LayerType.L2 then
    { s with layer2_topology := s.layer2_topology.addEdge source target link_data }
  else if layer = LayerType.L3 then
    { s with layer3_topology := s.layer3_topology.addEdge source target link_data }
  else s

/-- One raw link record as handed to `_add_link` by the discovery methods
(`time` is the clock value at the moment the record is inserted). -/
structure RawLink where
  source : String
  target : String
  link_type : LinkType
  layer : LayerType
  source_interface : String
  target_interface : String
  time : Int
deriving Repr, DecidableEq

/-- Feeding a list of raw link records through `_add_link`, in order. -/
def applyRecords (s : ManagerState) (l : List RawLink) : ManagerState :=
  l.foldl (fun s r =>
    addLink s r.source r.target r.link_type r.layer
      r.source_interface r.target_interface r.time) s

/-- Number of keys in the attribute dict of every edge inserted by
`_add_link` (`link_type`, `layer`, `source_interface`, `target_interface`,
`timestamp`). -/
def linkAttrCount : Nat := 5

/-- `TopologyManager._merge_duplicate_links` (lines 220-236).  On an
`nx.Graph`, `get_edge_data(u, v)` returns the edge's ATTRIBUTE dict, so
`len(edges) > 1` compares the attribute count (always 5) with 1 and every
edge is classified as a duplicate; `_merge_edge_data` (lines 238-254) then
iterates `edges.values()` — the attribute values (enums / strings / floats)
— and subscripts them, raising `TypeError` before any edge is removed or
added.  Hence: no edges → no work; at least one edge → `TypeError` escapes
with the graph unmodified. -/
def mergeDuplicateLinks (G : TopoGraph) : Except PyErr TopoGraph :=
  let duplicate_edges := G.edges.filter (fun _ => decide (linkAttrCount > 1))
  match duplicate_edges with
  | [] => Except.ok G
  | _ :: _ => Except.error PyErr.typeError

/-- `TopologyManager._merge_topologies` (lines 204-218): adds both layer
graphs' nodes and edges into `self.topology`, then runs the duplicate-link
pass; the surrounding `try/except` catches its `TypeError`, leaving the
already-performed additions in place. -/
def mergeTopologies (s : ManagerState) : ManagerState :=
  let t := s.topology
  let t := t.addNodesFrom s.layer2_topology.nodes
  let t := t.addEdgesFrom s.layer2_topology.edges
  let t := t.addNodesFrom s.layer3_topology.nodes
  let t := t.addEdgesFrom s.layer3_topology.edges
  let t :=
    match mergeDuplicateLinks t with
    | Except.ok t2 => t2
    | Except.error _ => t
  { s with topology := t }

/-- The unified graph built from a record list in one cycle, starting from a
fresh manager: layer-graph construction (`_add_link` folds) followed by
`_merge_topologies`. -/
def buildUnified (l : List RawLink) : TopoGraph :=
  (mergeTopologies (applyRecords initState l)).topology

/-- `TopologyManager._detect_topology_changes` (lines 256-300).  Node and
edge sets are compared (edge identity orientation-insensitively), common
edges are checked for attribute equality, and the record is appended when
`any(changes.values())` holds — which includes the truthiness of the
`timestamp` entry itself. -/
def detectTopologyChanges (previous_topology : TopoGraph) (now : Int)
    (s : ManagerState) : ManagerState :=
  let current_nodes := s.topology.nodes
  let previous_nodes := previous_topology.nodes
  let added_nodes := current_nodes.filter (fun x => decide (x ∉ previous_nodes))
  let removed_nodes := previous_nodes.filter (fun x => decide (x ∉ current_nodes))
  let current_edges := s.topology.edges.map (fun e => e.1)
  let previous_edges := previous_topology.edges.map (fun e => e.1)
  let added_links :=
    current_edges.filter (fun e => !previous_edges.any (fun e2 => sameEdgeB e e2))
  let removed_links :=
    previous_edges.filter (fun e => !current_edges.any (fun e2 => sameEdgeB e e2))
  let common_edges :=
    current_edges.filter (fun e => previous_edges.any (fun e2 => sameEdgeB e e2))
  let modified_links := common_edges.filterMap (fun e =>
    match s.topology.getEdgeData e, previous_topology.getEdgeData e with
    | some cur, some prevd => if cur ≠ prevd then some (e, prevd, cur) else none
    | _, _ => none)
  let changes : ChangeRecord :=
    ⟨now, added_nodes, removed_nodes, added_links, removed_links, modified_links⟩
  if changes.timestamp ≠ 0 ∨ added_nodes ≠ [] ∨ removed_nodes ≠ [] ∨
      added_links ≠ [] ∨ removed_links ≠ [] ∨ modified_links ≠ [] then
    { s with history := s.history ++ [changes] }
  else s

/-- `TopologyManager.update_topology` (lines 64-96).  The two discovery
steps depend on network probes, so they are abstracted as step functions
returning the mutated state plus an optional escaped exception (`none` =
normal return); merge and change detection are the embedded definitions
above (their internal `try/except` makes them total).  The body follows the
source: interval gate, `previous_topology = self.topology.copy()`, in-place
`clear()` of all three graphs, the build steps, and the `except` handler
that logs and returns `self.topology`. -/
def updateTopology
    (discoverLayer2 discoverLayer3 : ManagerState → ManagerState × Option PyErr)
    (now : Int) (s : ManagerState) : ManagerState × TopoGraph :=
  if now - s.last_update < s.update_interval then (s, s.topology)
  else
    let prev := s.topology
    let s1 : ManagerState :=
      { s with topology := Graph.empty, layer2_topology := Graph.empty,
               layer3_topology := Graph.empty }
    match discoverLayer2 s1 with
    | (s2, some _) => (s2, s2.topology)
    | (s2, none) =>
      match discoverLayer3 s2 with
      | (s3, some _) => (s3, s3.topology)
      | (s3, none) =>
        let s4 := mergeTopologies s3
        let s5 := detectTopologyChanges prev now s4
        let s6 := { s5 with last_update := now }
        (s6, s6.topology)

/-- Depth-first enumeration of the simple paths from `u` to `t` that avoid
`seen`, with enough fuel; embeds the traversal behind
`nx.all_simple_paths`. -/
def simplePathsAux {V E : Type} [DecidableEq V] (G : Graph V E) (t : V) :
    Nat → V → List V → List (List V)
  | 0, _, _ => []
  | fuel+1, u, seen =>
    if u = t then [[u]]
    else
      let seen' := u :: seen
      ((G.neighbors u).filter (fun w => decide (w ∉ seen'))).flatMap
        (fun w => (simplePathsAux G t fuel w seen').map (fun rest => u :: rest))

/-- Modelled from the spec: `nx.all_simple_paths` (external library code)
generates every simple (no repeated node) path from `source` to `target`;
a simple path visits at most `G.nodes.length` nodes, which bounds the
recursion. -/
def allSimplePaths {V E : Type} [DecidableEq V] (G : Graph V E) (s t : V) :
    List (List V) :=
  simplePathsAux G t G.nodes.length s []

/-- `TopologyManager.get_redundant_paths` (lines 328-334):
`list(nx.all_simple_paths(...))` with `except Exception` returning `[]`
(in particular `NodeNotFound` for an absent endpoint is caught). -/
def getRedundantPaths {V E : Type} [DecidableEq V] (G : Graph V E) (s t : V) :
    List (List V) :=
  if s ∈ G.nodes ∧ t ∈ G.nodes then allSimplePaths G s t else []

/-- Modelled from the spec: `nx.shortest_path` (external library code)
returns a minimum-hop path when one exists; here selected from the simple
paths, `none` when the nodes are disconnected. -/
def shortestPath {V E : Type} [DecidableEq V] (G : Graph V E) (s t : V) :
    Option (List V) :=
  (allSimplePaths G s t).foldl
    (fun acc p =>
      match acc with
      | none => some p
      | some q => if p.length < q.length then some p else acc)
    none

/-- `TopologyManager.get_path` (lines 320-326): only `NetworkXNoPath` is
caught (returning `[]`); `NodeNotFound`, raised when either endpoint is
absent from the graph, escapes to the caller. -/
def getPath {V E : Type} [DecidableEq V] (G : Graph V E) (s t : V) :
    Except PyErr (List V) :=
  if s ∈ G.nodes ∧ t ∈ G.nodes then
    match shortestPath G s t with
    | some p => Except.ok p
    | none => Except.ok []
  else Except.error PyErr.nodeNotFound

/-- The serialized forms produced by `export_topology`. -/
inductive ExportData where
  | nodeLink (nodes : List String) (links : List ((String × String) × LinkData))
  | graphml (nodes : List String) (links : List ((String × String) × LinkData))
deriving Repr, DecidableEq

/-- `TopologyManager.export_topology` (lines 351-362): `json` and `graphml`
serialize the graph; any other format name raises `ValueError`, which the
handler catches, logging and returning `None`. -/
def exportTopology (G : TopoGraph) (format : String) : Option ExportData :=
  if format = "json" then some (ExportData.nodeLink G.nodes G.edges)
  else if format = "graphml" then some (ExportData.graphml G.nodes G.edges)
  else none

/-- A simple path from `s` to `t` in `G`: nonempty (witnessed by `head?`),
endpoints as given, consecutive nodes adjacent, no repeated node. -/
def IsSimplePath {V E : Type} [DecidableEq V] (G : Graph V E) (s t : V)
    (p : List V) : Prop :=
  p.head? = some s ∧ p.getLast? = some t ∧
    List.Chain' (fun a b => G.adjB a b = true) p ∧ p.Nodup

/-- The path graph on `n` nodes `0, …, n-1`. -/
def pathGraphG (n : Nat) : Graph Nat Unit :=
  ⟨List.range n, (List.range (n - 1)).map (fun i => ((i, i + 1), ()))⟩

/-- The cycle graph on `n` nodes `0, …, n-1` (path edges plus the wrap
edge `(n-1, 0)`). -/
def cycleGraphG (n : Nat) : Graph Nat Unit :=
  ⟨List.range n,
    (List.range (n - 1)).map (fun i => ((i, i + 1), ())) ++ [((n - 1, 0), ())]⟩

/-- The theta-style graph with endpoints `0`, `1` and `k` disjoint middle
nodes `2, …, k+1`, each joined to both endpoints: it has exactly `k`
simple paths from `0` to `1`. -/
def thetaGraph (k : Nat) : Graph Nat Unit :=
  ⟨0 :: 1 :: (List.range k).map (fun i => i + 2),
    (List.range k).map (fun i => ((0, i + 2), ())) ++
      (List.range k).map (fun i => ((i + 2, 1), ()))⟩

/-- The node list `[a, a+1, …, a+d]`. -/
def ladder (a : Nat) : Nat → List Nat
  | 0 => [a]
  | d + 1 => a :: ladder (a + 1) d

/-- C8's claimed bounding property, instantiated at one configured bound:
either the result count is globally capped by `b`, or every returned
path's length is capped by `b` ("maximum path length and/or maximum result
count").  The claim asserts some configured bound makes this hold. -/
def RedundantPathsBounded (b : Nat) : Prop :=
  (∀ (G : Graph Nat Unit) (s t : Nat), (getRedundantPaths G s t).length ≤ b) ∨
  (∀ (G : Graph Nat Unit) (s t : Nat) (p : List Nat),
      p ∈ getRedundantPaths G s t → p.length ≤ b)

/-- A discovery step that raises `e` immediately, mutating nothing. -/
def discFail (e : PyErr) : ManagerState → ManagerState × Option PyErr :=
  fun s => (s, some e)

/-- A discovery step that returns normally without touching the state (the
source's probe helpers are stubs returning `[]`, so this is also the actual
behaviour of `_discover_layer2_topology` / `_discover_layer3_topology`). -/
def discOk : ManagerState → ManagerState × Option PyErr :=
  fun s => (s, none)

/-- A published graph holding the single L2 link A–B. -/
def gAB : TopoGraph :=
  Graph.empty.addEdge "A" "B" ⟨LinkType.PHYSICAL, LayerType.L2, "eth0", "eth1", 1⟩

/-- A published graph holding the single L2 link C–D. -/
def gCD : TopoGraph :=
  Graph.empty.addEdge "C" "D" ⟨LinkType.PHYSICAL, LayerType.L2, "eth4", "eth5", 2⟩

/-- Manager state publishing `gAB`, ready for an update (gate open at
`now = 5000`). -/
def sStateAB : ManagerState := ⟨gAB, Graph.empty, Graph.empty, [], 0, 3600⟩

/-- Manager state publishing `gCD`, ready for an update (gate open at
`now = 4000`). -/
def sStateCD : ManagerState := ⟨gCD, Graph.empty, Graph.empty, [], 0, 3600⟩

/-- First raw record for the duplicate-link scenarios: A–B on L2 via
`eth0`/`eth1`. -/
def rawAB1 : RawLink :=
  ⟨"A", "B", LinkType.PHYSICAL, LayerType.L2, "eth0", "eth1", 1⟩

/-- Second raw record for the duplicate-link scenarios: the same unordered
pair A–B on L2, different interfaces `eth2`/`eth3`. -/
def rawAB2 : RawLink :=
  ⟨"A", "B", LinkType.PHYSICAL, LayerType.L2, "eth2", "eth3", 2⟩

/-! ### Basic facts about undirected-edge identity and adjacency -/

theorem sameEdgeB_iff {V : Type} [DecidableEq V] {a b : V × V} :
    sameEdgeB a b = true ↔
      (a.1 = b.1 ∧ a.2 = b.2) ∨ (a.1 = b.2 ∧ a.2 = b.1) := by
  simp [sameEdgeB]

theorem sameEdgeB_symm {V : Type} [DecidableEq V] (a b : V × V) :
    sameEdgeB a b = sameEdgeB b a := by
  simp only [sameEdgeB, decide_eq_decide]
  tauto

theorem sameEdgeB_swap {V : Type} [DecidableEq V] (u v : V) (b : V × V) :
    sameEdgeB (u, v) b = sameEdgeB (v, u) b := by
  simp only [sameEdgeB, decide_eq_decide]
  tauto

theorem sameEdgeB_trans {V : Type} [DecidableEq V] {a b c : V × V}
    (h1 : sameEdgeB a b = true) (h2 : sameEdgeB b c = true) :
    sameEdgeB a c = true := by
  rw [sameEdgeB_iff] at h1 h2 ⊢
  rcases h1 with ⟨h3, h4⟩ | ⟨h3, h4⟩ <;> rcases h2 with ⟨h5, h6⟩ | ⟨h5, h6⟩ <;>
    simp_all

theorem adjB_iff {V E : Type} [DecidableEq V] {G : Graph V E} {u v : V} :
    G.adjB u v = true ↔ ∃ e ∈ G.edges, sameEdgeB (u, v) e.1 = true := by
  simp [Graph.adjB, List.any_eq_true]

theorem adjB_symm {V E : Type} [DecidableEq V] (G : Graph V E) (u v : V) :
    G.adjB u v = G.adjB v u := by
  simp only [Graph.adjB]
  congr 1
  funext e
  exact sameEdgeB_swap u v e.1

theorem mem_neighbors_iff {V E : Type} [DecidableEq V] {G : Graph V E} {u v : V} :
    v ∈ G.neighbors u ↔ G.adjB u v = true := by
  simp only [Graph.neighbors, List.mem_filterMap, adjB_iff]
  constructor
  · rintro ⟨e, he, hv⟩
    refine ⟨e, he, ?_⟩
    rw [sameEdgeB_iff]
    split_ifs at hv with h1 h2
    · injection hv with hv
      exact Or.inl ⟨h1.symm, hv.symm⟩
    · injection hv with hv
      exact Or.inr ⟨h2.symm, hv.symm⟩
  · rintro ⟨e, he, hv⟩
    rw [sameEdgeB_iff] at hv
    refine ⟨e, he, ?_⟩
    rcases hv with ⟨h1, h2⟩ | ⟨h1, h2⟩
    · dsimp only at h1 h2
      subst h1; subst h2
      simp
    · dsimp only at h1 h2
      subst h1; subst h2
      by_cases h3 : e.1.1 = e.1.2
      · rw [if_pos h3, ← h3]
      · rw [if_neg h3, if_pos rfl]

/-! ### Reachability -/

theorem Reachable.refl' {V E : Type} [DecidableEq V] (G : Graph V E) (u : V) :
    Reachable G u u :=
  Relation.ReflTransGen.refl

theorem Reachable.of_adj {V E : Type} [DecidableEq V] {G : Graph V E} {u v : V}
    (h : G.adjB u v = true) : Reachable G u v :=
  Relation.ReflTransGen.single h

theorem Reachable.trans' {V E : Type} [DecidableEq V] {G : Graph V E} {u v w : V}
    (h1 : Reachable G u v) (h2 : Reachable G v w) : Reachable G u w :=
  Relation.ReflTransGen.trans h1 h2

theorem Reachable.symm' {V E : Type} [DecidableEq V] {G : Graph V E} {u v : V}
    (h : Reachable G u v) : Reachable G v u := by
  refine Relation.ReflTransGen.symmetric ?_ h
  intro a b hab
  rwa [adjB_symm] at hab

theorem reachable_no_edges {V E : Type} [DecidableEq V] {G : Graph V E} {u v : V}
    (hG : G.edges = []) (h : Reachable G u v) : u = v := by
  induction h with
  | refl => rfl
  | tail _ hadj ih =>
    rw [adjB_iff, hG] at hadj
    simp at hadj

theorem chain_reachable {V E : Type} [DecidableEq V] {G : Graph V E}
    {a : V} {p : List V} {b : V}
    (hc : List.Chain (fun x y => G.adjB x y = true) a p)
    (hb : (a :: p).getLast (List.cons_ne_nil a p) = b) : Reachable G a b := by
  induction hc generalizing b with
  | nil =>
    rw [List.getLast_singleton'] at hb
    cases hb
    exact Relation.ReflTransGen.refl
  | @cons x y l hadj _ ih =>
    rw [List.getLast_cons_cons] at hb
    exact Relation.ReflTransGen.head hadj (ih hb)

theorem chain'_reachable {V E : Type} [DecidableEq V] {G : Graph V E}
    {p : List V} {a b : V}
    (hc : List.Chain' (fun x y => G.adjB x y = true) p)
    (ha : p.head? = some a) (hb : p.getLast? = some b) : Reachable G a b := by
  cases p with
  | nil => simp at ha
  | cons c xs =>
    simp only [List.head?_cons, Option.some.injEq] at ha
    subst ha
    have hchain : List.Chain (fun x y => G.adjB x y = true) c xs := hc
    have hlast : (c :: xs).getLast (List.cons_ne_nil c xs) = b := by
      rw [List.getLast?_eq_getLast_of_ne_nil (List.cons_ne_nil c xs),
        Option.some.injEq] at hb
      exact hb
    exact chain_reachable hchain hlast

/-! ### Edge removal -/

theorem adjB_removeEdgeKey_iff {V E : Type} [DecidableEq V] {G : Graph V E}
    {k : V × V} {u v : V} :
    (G.removeEdgeKey k).adjB u v = true ↔
      G.adjB u v = true ∧ sameEdgeB k (u, v) = false := by
  simp only [Graph.removeEdgeKey, adjB_iff, List.mem_filter,
    Bool.not_eq_true', Bool.not_eq_eq_eq_not, Bool.not_true]
  constructor
  · rintro ⟨e, ⟨he, hek⟩, hsame⟩
    refine ⟨⟨e, he, hsame⟩, ?_⟩
    by_contra hk
    rw [Bool.not_eq_false] at hk
    have : sameEdgeB k e.1 = true :=
      sameEdgeB_trans hk hsame
    rw [this] at hek
    exact Bool.true_eq_false.mp hek
  · rintro ⟨⟨e, he, hsame⟩, hk⟩
    refine ⟨e, ⟨he, ?_⟩, hsame⟩
    by_contra hek
    rw [Bool.not_eq_false] at hek
    have : sameEdgeB k (u, v) = true :=
      sameEdgeB_trans hek ((sameEdgeB_symm (u, v) e.1) ▸ hsame)
    rw [this] at hk
    exact Bool.true_eq_false.mp hk

theorem removeEdgeKey_swap {V E : Type} [DecidableEq V] (G : Graph V E) (u v : V) :
    G.removeEdgeKey (u, v) = G.removeEdgeKey (v, u) := by
  simp only [Graph.removeEdgeKey, Graph.mk.injEq, true_and]
  apply List.filter_congr
  intro e _
  rw [sameEdgeB_swap]

/-! ### Characterisation of the simple-path enumeration -/

theorem mem_simplePathsAux_iff {V E : Type} [DecidableEq V] (G : Graph V E) (t : V) :
    ∀ (fuel : Nat) (u : V) (seen : List V), u ∉ seen → ∀ p : List V,
      (p ∈ simplePathsAux G t fuel u seen ↔
        (p.head? = some u ∧ p.getLast? = some t ∧
         List.Chain' (fun a b => G.adjB a b = true) p ∧ p.Nodup ∧
         (∀ x ∈ p, x ∉ seen) ∧ p.length ≤ fuel)) := by
  intro fuel
  induction fuel with
  | zero =>
    intro u seen _ p
    simp only [simplePathsAux, List.not_mem_nil, false_iff]
    rintro ⟨hh, -, -, -, -, hlen⟩
    cases p with
    | nil => simp at hh
    | cons c rest => simp at hlen
  | succ fuel ih =>
    intro u seen hu p
    by_cases hut : u = t
    · subst hut
      have hstep : simplePathsAux G u (fuel + 1) u seen = [[u]] := by
        simp [simplePathsAux]
      rw [hstep, List.mem_singleton]
      constructor
      · rintro rfl
        refine ⟨rfl, rfl, List.chain'_singleton u, List.nodup_singleton u, ?_, by simp⟩
        intro x hx
        rw [List.mem_singleton] at hx
        exact hx ▸ hu
      · rintro ⟨hh, hl, -, hnd, -, -⟩
        cases p with
        | nil => simp at hh
        | cons c rest =>
          simp only [List.head?_cons, Option.some.injEq] at hh
          subst hh
          cases rest with
          | nil => rfl
          | cons d rest2 =>
            rw [List.getLast?_cons_cons,
              List.getLast?_eq_getLast_of_ne_nil (List.cons_ne_nil d rest2),
              Option.some.injEq] at hl
            exfalso
            rw [List.nodup_cons] at hnd
            exact hnd.1 (hl ▸ List.getLast_mem (List.cons_ne_nil d rest2))
    · simp only [simplePathsAux, if_neg hut, List.mem_flatMap, List.mem_filter,
        List.mem_map, decide_eq_true_eq]
      constructor
      · rintro ⟨w, ⟨hwnb, hwseen⟩, rest, hrest, rfl⟩
        have hr := (ih w (u :: seen) hwseen rest).mp hrest
        obtain ⟨hh, hl, hc, hnd, hseen, hlen⟩ := hr
        cases rest with
        | nil => simp at hh
        | cons w' rest' =>
          simp only [List.head?_cons, Option.some.injEq] at hh
          subst hh
          refine ⟨rfl, ?_, ?_, ?_, ?_, ?_⟩
          · rw [List.getLast?_cons_cons]
            exact hl
          · rw [List.chain'_cons]
            exact ⟨mem_neighbors_iff.mp hwnb, hc⟩
          · rw [List.nodup_cons]
            refine ⟨?_, hnd⟩
            intro hmem
            exact (hseen u hmem) (List.mem_cons_self u seen)
          · intro x hx
            rcases List.mem_cons.mp hx with rfl | hx
            · exact hu
            · intro hxs
              exact (hseen x hx) (List.mem_cons_of_mem u hxs)
          · simpa using Nat.succ_le_succ hlen
      · rintro ⟨hh, hl, hc, hnd, hseen, hlen⟩
        cases p with
        | nil => simp at hh
        | cons c rest =>
          simp only [List.head?_cons, Option.some.injEq] at hh
          subst hh
          cases rest with
          | nil =>
            exfalso
            simp only [List.getLast?_singleton, Option.some.injEq] at hl
            exact hut hl
          | cons w rest' =>
            refine ⟨w, ⟨?_, ?_⟩, w :: rest', ?_, rfl⟩
            · exact mem_neighbors_iff.mpr (List.chain'_cons.mp hc).1
            · intro hmem
              rcases List.mem_cons.mp hmem with rfl | hmem
              · rw [List.nodup_cons] at hnd
                exact hnd.1 (List.mem_cons_self w rest')
              · exact (hseen w (List.mem_cons_of_mem _ (List.mem_cons_self w rest'))) hmem
            · refine (ih w (c :: seen) ?_ (w :: rest')).mpr
                ⟨rfl, ?_, ?_, ?_, ?_, ?_⟩
              · intro hmem
                rcases List.mem_cons.mp hmem with rfl | hmem
                · rw [List.nodup_cons] at hnd
                  exact hnd.1 (List.mem_cons_self w rest')
                · exact (hseen w (List.mem_cons_of_mem _ (List.mem_cons_self w rest'))) hmem
              · rw [List.getLast?_cons_cons] at hl
                exact hl
              · exact (List.chain'_cons.mp hc).2
              · exact (List.nodup_cons.mp hnd).2
              · intro x hx hmem
                rcases List.mem_cons.mp hmem with rfl | hmem2
                · exact (List.nodup_cons.mp hnd).1 hx
                · exact (hseen x (List.mem_cons_of_mem _ hx)) hmem2
              · simpa using Nat.le_of_succ_le_succ (by simpa using hlen)

theorem adjB_mem_of_wf {V E : Type} [DecidableEq V] {G : Graph V E} (hWf : G.Wf)
    {u v : V} (h : G.adjB u v = true) : u ∈ G.nodes ∧ v ∈ G.nodes := by
  rw [adjB_iff] at h
  obtain ⟨e, he, hsame⟩ := h
  rw [sameEdgeB_iff] at hsame
  have := hWf e he
  rcases hsame with ⟨h1, h2⟩ | ⟨h1, h2⟩
  · have h1' : u = e.1.1 := h1
    have h2' : v = e.1.2 := h2
    exact ⟨h1'.symm ▸ this.1, h2'.symm ▸ this.2⟩
  · have h1' : u = e.1.2 := h1
    have h2' : v = e.1.1 := h2
    exact ⟨h1'.symm ▸ this.2, h2'.symm ▸ this.1⟩

theorem chain'_mem_nodes {V E : Type} [DecidableEq V] {G : Graph V E} (hWf : G.Wf) :
    ∀ (p : List V) (a : V), List.Chain' (fun x y => G.adjB x y = true) p →
      p.head? = some a → a ∈ G.nodes → ∀ x ∈ p, x ∈ G.nodes := by
  intro p
  induction p with
  | nil => intro a _ ha _ x hx; simp at hx
  | cons c rest ih =>
    intro a hc ha hmem x hx
    simp only [List.head?_cons, Option.some.injEq] at ha
    subst ha
    rcases List.mem_cons.mp hx with rfl | hx
    · exact hmem
    · cases rest with
      | nil => simp at hx
      | cons w rest' =>
        have hadj := (List.chain'_cons.mp hc).1
        exact ih w (List.chain'_cons.mp hc).2 rfl (adjB_mem_of_wf hWf hadj).2 x hx

theorem mem_allSimplePaths_iff {V E : Type} [DecidableEq V] {G : Graph V E}
    (hWf : G.Wf) {s t : V} (hs : s ∈ G.nodes) (p : List V) :
    p ∈ allSimplePaths G s t ↔ IsSimplePath G s t p := by
  rw [allSimplePaths, mem_simplePathsAux_iff G t _ s [] (by simp) p]
  constructor
  · rintro ⟨hh, hl, hc, hnd, -, -⟩
    exact ⟨hh, hl, hc, hnd⟩
  · rintro ⟨hh, hl, hc, hnd⟩
    refine ⟨hh, hl, hc, hnd, by simp, ?_⟩
    have hsub : ∀ x ∈ p, x ∈ G.nodes := chain'_mem_nodes hWf p s hc hh hs
    exact List.Subperm.length_le
      (List.subperm_of_subset hnd (fun x hx => hsub x hx))

theorem mem_getRedundantPaths_iff {V E : Type} [DecidableEq V] {G : Graph V E}
    (hWf : G.Wf) {s t : V} {p : List V} :
    p ∈ getRedundantPaths G s t ↔
      s ∈ G.nodes ∧ t ∈ G.nodes ∧ IsSimplePath G s t p := by
  unfold getRedundantPaths
  split_ifs with h
  · rw [mem_allSimplePaths_iff hWf h.1]
    exact ⟨fun hp => ⟨h.1, h.2, hp⟩, fun hp => hp.2.2⟩
  · simp only [List.not_mem_nil, false_iff]
    rintro ⟨hs, ht, -⟩
    exact h ⟨hs, ht⟩

theorem allSimplePaths_eq_nil_of_not_reachable {V E : Type} [DecidableEq V]
    {G : Graph V E} {s t : V} (h : ¬ Reachable G s t) :
    allSimplePaths G s t = [] := by
  rw [List.eq_nil_iff_forall_not_mem]
  intro p hp
  have hp2 := (mem_simplePathsAux_iff G t _ s [] (by simp) p).mp hp
  exact h (chain'_reachable hp2.2.2.1 hp2.1 hp2.2.1)

theorem shortestPath_eq_none_of_not_reachable {V E : Type} [DecidableEq V]
    {G : Graph V E} {s t : V} (h : ¬ Reachable G s t) :
    shortestPath G s t = none := by
  rw [shortestPath, allSimplePaths_eq_nil_of_not_reachable h]
  rfl

/-! ### Ladders of consecutive integers -/

theorem ladder_head? (a d : Nat) : (ladder a d).head? = some a := by
  cases d <;> rfl

theorem ladder_concat (a d : Nat) : ladder a (d + 1) = ladder a d ++ [a + d + 1] := by
  induction d generalizing a with
  | zero => rfl
  | succ d ih =>
    show a :: ladder (a + 1) (d + 1) = (a :: ladder (a + 1) d) ++ [a + d + 1 + 1]
    rw [ih (a + 1)]
    have harith : a + 1 + d + 1 = a + d + 1 + 1 := by omega
    rw [harith, List.cons_append]

theorem ladder_getLast? (a d : Nat) : (ladder a d).getLast? = some (a + d) := by
  cases d with
  | zero => rfl
  | succ d =>
    rw [ladder_concat, List.getLast?_concat]
    rfl

theorem ladder_length (a d : Nat) : (ladder a d).length = d + 1 := by
  induction d generalizing a with
  | zero => rfl
  | succ d ih =>
    show (a :: ladder (a + 1) d).length = d + 2
    rw [List.length_cons, ih (a + 1)]

theorem mem_ladder {x a d : Nat} : x ∈ ladder a d ↔ a ≤ x ∧ x ≤ a + d := by
  induction d generalizing a with
  | zero =>
    show x ∈ [a] ↔ _
    rw [List.mem_singleton]
    omega
  | succ d ih =>
    show x ∈ a :: ladder (a + 1) d ↔ _
    rw [List.mem_cons, ih]
    omega

theorem ladder_nodup (a d : Nat) : (ladder a d).Nodup := by
  induction d generalizing a with
  | zero => exact List.nodup_singleton a
  | succ d ih =>
    show (a :: ladder (a + 1) d).Nodup
    rw [List.nodup_cons]
    refine ⟨?_, ih (a + 1)⟩
    rw [mem_ladder]
    omega

theorem chain'_ladder {E : Type} (G : Graph Nat E) (a d : Nat)
    (h : ∀ j, a ≤ j → j < a + d → G.adjB j (j + 1) = true) :
    List.Chain' (fun x y => G.adjB x y = true) (ladder a d) := by
  induction d generalizing a with
  | zero => exact List.chain'_singleton a
  | succ d ih =>
    show List.Chain' _ (a :: ladder (a + 1) d)
    rw [List.chain'_cons']
    constructor
    · intro y hy
      rw [ladder_head?, Option.mem_def, Option.some.injEq] at hy
      subst hy
      exact h a (Nat.le_refl a) (by omega)
    · exact ih (a + 1) (fun j hj1 hj2 => h j (by omega) (by omega))

theorem reach_ladder {E : Type} (G : Graph Nat E) (a d : Nat)
    (h : ∀ j, a ≤ j → j < a + d → G.adjB j (j + 1) = true) :
    Reachable G a (a + d) :=
  chain'_reachable (chain'_ladder G a d h) (ladder_head? a d) (ladder_getLast? a d)

/-! ### Path and cycle graphs -/

theorem sameEdgeB_eq_false_iff {V : Type} [DecidableEq V] {a b : V × V} :
    sameEdgeB a b = false ↔
      ¬ ((a.1 = b.1 ∧ a.2 = b.2) ∨ (a.1 = b.2 ∧ a.2 = b.1)) := by
  simp [sameEdgeB]

theorem adjB_pathGraphG_iff {n u v : Nat} :
    (pathGraphG n).adjB u v = true ↔
      (v = u + 1 ∧ u + 1 < n) ∨ (u = v + 1 ∧ v + 1 < n) := by
  simp only [pathGraphG, adjB_iff, List.mem_map, List.mem_range]
  constructor
  · rintro ⟨e, ⟨i, hi, rfl⟩, h⟩
    rw [sameEdgeB_iff] at h
    dsimp at h
    omega
  · rintro (⟨h1, h2⟩ | ⟨h1, h2⟩)
    · refine ⟨((u, u + 1), ()), ⟨u, by omega, rfl⟩, ?_⟩
      rw [sameEdgeB_iff]
      exact Or.inl ⟨rfl, h1⟩
    · refine ⟨((v, v + 1), ()), ⟨v, by omega, rfl⟩, ?_⟩
      rw [sameEdgeB_iff]
      exact Or.inr ⟨h1, rfl⟩

theorem adjB_cycleGraphG_iff {n u v : Nat} (hn : 3 ≤ n) :
    (cycleGraphG n).adjB u v = true ↔
      (v = u + 1 ∧ u + 1 < n) ∨ (u = v + 1 ∧ v + 1 < n) ∨
      (u = n - 1 ∧ v = 0) ∨ (u = 0 ∧ v = n - 1) := by
  simp only [cycleGraphG, adjB_iff, List.mem_append, List.mem_map, List.mem_range,
    List.mem_singleton]
  constructor
  · rintro ⟨e, (⟨i, hi, rfl⟩ | rfl), h⟩ <;> rw [sameEdgeB_iff] at h <;> dsimp at h <;>
      omega
  · rintro (⟨h1, h2⟩ | ⟨h1, h2⟩ | ⟨h1, h2⟩ | ⟨h1, h2⟩)
    · refine ⟨((u, u + 1), ()), Or.inl ⟨u, by omega, rfl⟩, ?_⟩
      rw [sameEdgeB_iff]
      exact Or.inl ⟨rfl, h1⟩
    · refine ⟨((v, v + 1), ()), Or.inl ⟨v, by omega, rfl⟩, ?_⟩
      rw [sameEdgeB_iff]
      exact Or.inr ⟨h1, rfl⟩
    · refine ⟨((n - 1, 0), ()), Or.inr rfl, ?_⟩
      rw [sameEdgeB_iff]
      exact Or.inl ⟨h1, h2⟩
    · refine ⟨((n - 1, 0), ()), Or.inr rfl, ?_⟩
      rw [sameEdgeB_iff]
      exact Or.inr ⟨h1, h2⟩

/-! ### Bridges -/

theorem reach_patch {V E : Type} [DecidableEq V] {G : Graph V E} {u v : V}
    (h : Reachable (G.removeEdgeKey (u, v)) u v) :
    ∀ {a b : V}, Reachable G a b → Reachable (G.removeEdgeKey (u, v)) a b := by
  intro a b hab
  induction hab with
  | refl => exact Relation.ReflTransGen.refl
  | @tail y x _ hadj ih =>
    by_cases hk : sameEdgeB (u, v) (y, x) = true
    · rw [sameEdgeB_iff] at hk
      rcases hk with ⟨h1, h2⟩ | ⟨h1, h2⟩
      · have h1' : u = y := h1
        have h2' : v = x := h2
        subst h1'; subst h2'
        exact ih.trans' h
      · have h1' : u = x := h1
        have h2' : v = y := h2
        subst h1'; subst h2'
        exact ih.trans' h.symm'
    · rw [Bool.not_eq_true] at hk
      exact Relation.ReflTransGen.tail ih (adjB_removeEdgeKey_iff.mpr ⟨hadj, hk⟩)

theorem isBridge_iff_disconnects {V E : Type} [DecidableEq V] (G : Graph V E)
    (u v : V) :
    IsBridge G u v ↔ G.adjB u v = true ∧
      ∃ a b, Reachable G a b ∧ ¬ Reachable (G.removeEdgeKey (u, v)) a b := by
  constructor
  · rintro ⟨hadj, hn⟩
    exact ⟨hadj, u, v, Reachable.of_adj hadj, hn⟩
  · rintro ⟨hadj, a, b, hab, hnab⟩
    exact ⟨hadj, fun hr => hnab (reach_patch hr hab)⟩

theorem pathGraph_reach_le {n i x : Nat}
    (h : Reachable ((pathGraphG n).removeEdgeKey (i, i + 1)) i x) : x ≤ i := by
  induction h with
  | refl => exact Nat.le_refl i
  | @tail y x _ hadj ih =>
    rw [adjB_removeEdgeKey_iff] at hadj
    obtain ⟨hadjG, hne⟩ := hadj
    rw [adjB_pathGraphG_iff] at hadjG
    rw [sameEdgeB_eq_false_iff] at hne
    dsimp at hne
    omega

theorem isBridge_pathGraphG {n u v : Nat} :
    IsBridge (pathGraphG n) u v ↔ (pathGraphG n).adjB u v = true := by
  constructor
  · exact fun h => h.1
  · intro hadj
    refine ⟨hadj, ?_⟩
    rcases adjB_pathGraphG_iff.mp hadj with ⟨h1, h2⟩ | ⟨h1, h2⟩
    · subst h1
      intro hr
      exact absurd (pathGraph_reach_le hr) (by omega)
    · subst h1
      intro hr
      rw [removeEdgeKey_swap] at hr
      exact absurd (pathGraph_reach_le hr.symm') (by omega)

theorem cycleGraphG_adj_succ {n j : Nat} (hj : j + 1 < n) :
    (cycleGraphG n).adjB j (j + 1) = true := by
  rw [adjB_iff]
  refine ⟨((j, j + 1), ()), ?_, ?_⟩
  · simp only [cycleGraphG, List.mem_append, List.mem_map, List.mem_range]
    exact Or.inl ⟨j, by omega, rfl⟩
  · rw [sameEdgeB_iff]
    exact Or.inl ⟨rfl, rfl⟩

theorem cycleGraphG_adj_wrap {n : Nat} :
    (cycleGraphG n).adjB (n - 1) 0 = true := by
  rw [adjB_iff]
  refine ⟨((n - 1, 0), ()), ?_, ?_⟩
  · simp only [cycleGraphG, List.mem_append, List.mem_singleton]
    exact Or.inr trivial
  · rw [sameEdgeB_iff]
    exact Or.inl ⟨rfl, rfl⟩

theorem cycle_reach_succ {n k : Nat} (hn : 3 ≤ n) (hk : k + 1 < n) :
    Reachable ((cycleGraphG n).removeEdgeKey (k, k + 1)) k (k + 1) := by
  have hadjG' : ∀ j, j + 1 < n → j ≠ k →
      ((cycleGraphG n).removeEdgeKey (k, k + 1)).adjB j (j + 1) = true := by
    intro j hj hjk
    rw [adjB_removeEdgeKey_iff]
    refine ⟨cycleGraphG_adj_succ hj, ?_⟩
    rw [sameEdgeB_eq_false_iff]
    dsimp
    omega
  have h0k : Reachable ((cycleGraphG n).removeEdgeKey (k, k + 1)) 0 k := by
    have := reach_ladder ((cycleGraphG n).removeEdgeKey (k, k + 1)) 0 k
      (fun j hj1 hj2 => hadjG' j (by omega) (by omega))
    simpa using this
  have hk1 : Reachable ((cycleGraphG n).removeEdgeKey (k, k + 1)) (k + 1) (n - 1) := by
    have := reach_ladder ((cycleGraphG n).removeEdgeKey (k, k + 1)) (k + 1)
      (n - 1 - (k + 1)) (fun j hj1 hj2 => hadjG' j (by omega) (by omega))
    have harith : k + 1 + (n - 1 - (k + 1)) = n - 1 := by omega
    rwa [harith] at this
  have hwrap : ((cycleGraphG n).removeEdgeKey (k, k + 1)).adjB (n - 1) 0 = true := by
    rw [adjB_removeEdgeKey_iff]
    refine ⟨cycleGraphG_adj_wrap, ?_⟩
    rw [sameEdgeB_eq_false_iff]
    dsimp
    omega
  exact ((hk1.trans' (Reachable.of_adj hwrap)).trans' h0k).symm'

theorem cycle_reach_wrap {n : Nat} (hn : 3 ≤ n) :
    Reachable ((cycleGraphG n).removeEdgeKey (n - 1, 0)) (n - 1) 0 := by
  have h0 : Reachable ((cycleGraphG n).removeEdgeKey (n - 1, 0)) 0 (n - 1) := by
    have := reach_ladder ((cycleGraphG n).removeEdgeKey (n - 1, 0)) 0 (n - 1)
      (fun j hj1 hj2 => by
        rw [adjB_removeEdgeKey_iff]
        refine ⟨cycleGraphG_adj_succ (by omega), ?_⟩
        rw [sameEdgeB_eq_false_iff]
        dsimp
        omega)
    simpa using this
  exact h0.symm'

theorem cycleGraphG_no_bridge {n : Nat} (hn : 3 ≤ n) (u v : Nat) :
    ¬ IsBridge (cycleGraphG n) u v := by
  rintro ⟨hadj, hnr⟩
  rcases (adjB_cycleGraphG_iff hn).mp hadj with
    ⟨h1, h2⟩ | ⟨h1, h2⟩ | ⟨h1, h2⟩ | ⟨h1, h2⟩
  · subst h1
    exact hnr (cycle_reach_succ hn h2)
  · subst h1
    rw [removeEdgeKey_swap] at hnr
    exact hnr ((cycle_reach_succ hn h2).symm')
  · subst h1; subst h2
    exact hnr (cycle_reach_wrap hn)
  · subst h1; subst h2
    rw [removeEdgeKey_swap] at hnr
    exact hnr ((cycle_reach_wrap hn).symm')

/-! ### Membership characterisation of graph construction -/

theorem mem_addNode {V E : Type} [DecidableEq V] {G : Graph V E} {v x : V} :
    x ∈ (G.addNode v).nodes ↔ x ∈ G.nodes ∨ x = v := by
  unfold Graph.addNode
  split_ifs with h
  · constructor
    · exact Or.inl
    · rintro (hx | rfl)
      · exact hx
      · exact h
  · simp [List.mem_append]

theorem mem_addEdge_nodes {V E : Type} [DecidableEq V] {G : Graph V E}
    {u v x : V} {d : E} :
    x ∈ (G.addEdge u v d).nodes ↔ x ∈ G.nodes ∨ x = u ∨ x = v := by
  show x ∈ ((G.addNode u).addNode v).nodes ↔ _
  rw [mem_addNode, mem_addNode]
  tauto

theorem addEdge_key {V E : Type} [DecidableEq V] (u v : V) (d : E)
    (e : (V × V) × E) :
    ((if sameEdgeB (u, v) e.1 then (e.1, d) else e)).1 = e.1 := by
  split_ifs <;> rfl

theorem adjB_addEdge {V E : Type} [DecidableEq V] {G : Graph V E}
    {u v a b : V} {d : E} :
    (G.addEdge u v d).adjB a b = true ↔
      G.adjB a b = true ∨ sameEdgeB (a, b) (u, v) = true := by
  unfold Graph.addEdge Graph.adjB
  dsimp only
  split_ifs with h
  · rw [List.any_eq_true] at h
    obtain ⟨e1, he1, hk1⟩ := h
    rw [List.any_eq_true, List.any_eq_true]
    constructor
    · rintro ⟨e, he, hsame⟩
      rw [List.mem_map] at he
      obtain ⟨e0, he0, rfl⟩ := he
      rw [addEdge_key] at hsame
      exact Or.inl ⟨e0, he0, hsame⟩
    · rintro (⟨e0, he0, hs⟩ | hsame)
      · refine ⟨_, List.mem_map_of_mem _ he0, ?_⟩
        rw [addEdge_key]
        exact hs
      · refine ⟨_, List.mem_map_of_mem _ he1, ?_⟩
        rw [addEdge_key]
        exact sameEdgeB_trans hsame hk1
  · rw [List.any_append]
    simp only [List.any_cons, List.any_nil, Bool.or_false, Bool.or_eq_true]

theorem addNodesFrom_edges {V E : Type} [DecidableEq V] (G : Graph V E)
    (ns : List V) : (G.addNodesFrom ns).edges = G.edges := by
  induction ns generalizing G with
  | nil => rfl
  | cons n rest ih =>
    show ((G.addNode n).addNodesFrom rest).edges = G.edges
    rw [ih]
    unfold Graph.addNode
    split_ifs <;> rfl

theorem mem_addNodesFrom {V E : Type} [DecidableEq V] {G : Graph V E}
    {ns : List V} {x : V} :
    x ∈ (G.addNodesFrom ns).nodes ↔ x ∈ G.nodes ∨ x ∈ ns := by
  induction ns generalizing G with
  | nil => simp [Graph.addNodesFrom]
  | cons n rest ih =>
    show x ∈ ((G.addNode n).addNodesFrom rest).nodes ↔ _
    rw [ih, mem_addNode, List.mem_cons]
    tauto

theorem adjB_addNodesFrom {V E : Type} [DecidableEq V] (G : Graph V E)
    (ns : List V) (a b : V) :
    (G.addNodesFrom ns).adjB a b = G.adjB a b := by
  unfold Graph.adjB
  rw [addNodesFrom_edges]

theorem mem_addEdgesFrom_nodes {V E : Type} [DecidableEq V] {G : Graph V E}
    {es : List ((V × V) × E)} {x : V} :
    x ∈ (G.addEdgesFrom es).nodes ↔
      x ∈ G.nodes ∨ ∃ e ∈ es, x = e.1.1 ∨ x = e.1.2 := by
  induction es generalizing G with
  | nil => simp [Graph.addEdgesFrom]
  | cons e rest ih =>
    show x ∈ ((G.addEdge e.1.1 e.1.2 e.2).addEdgesFrom rest).nodes ↔ _
    rw [ih, mem_addEdge_nodes]
    simp only [List.mem_cons]
    constructor
    · rintro ((hG | h1 | h2) | ⟨e0, he0, h⟩)
      · exact Or.inl hG
      · exact Or.inr ⟨e, Or.inl rfl, Or.inl h1⟩
      · exact Or.inr ⟨e, Or.inl rfl, Or.inr h2⟩
      · exact Or.inr ⟨e0, Or.inr he0, h⟩
    · rintro (hG | ⟨e0, (rfl | he0), h⟩)
      · exact Or.inl (Or.inl hG)
      · exact Or.inl (Or.inr h)
      · exact Or.inr ⟨e0, he0, h⟩

theorem adjB_addEdgesFrom {V E : Type} [DecidableEq V] {G : Graph V E}
    {es : List ((V × V) × E)} {a b : V} :
    (G.addEdgesFrom es).adjB a b = true ↔
      G.adjB a b = true ∨ ∃ e ∈ es, sameEdgeB (a, b) e.1 = true := by
  induction es generalizing G with
  | nil => simp [Graph.addEdgesFrom]
  | cons e rest ih =>
    show ((G.addEdge e.1.1 e.1.2 e.2).addEdgesFrom rest).adjB a b = true ↔ _
    rw [ih, adjB_addEdge]
    simp only [List.mem_cons]
    constructor
    · rintro ((hG | hk) | ⟨e0, he0, h⟩)
      · exact Or.inl hG
      · exact Or.inr ⟨e, Or.inl rfl, hk⟩
      · exact Or.inr ⟨e0, Or.inr he0, h⟩
    · rintro (hG | ⟨e0, (rfl | he0), h⟩)
      · exact Or.inl (Or.inl hG)
      · exact Or.inl (Or.inr h)
      · exact Or.inr ⟨e0, he0, h⟩

/-! ### From raw records to the layer graphs -/

theorem addLink_layer2_eq (s : ManagerState) (src tgt : String) (lt : LinkType)
    (si ti : String) (tm : Int) :
    addLink s src tgt lt LayerType.L2 si ti tm =
      { s with layer2_topology :=
          s.layer2_topology.addEdge src tgt ⟨lt, LayerType.L2, si, ti, tm⟩ } := rfl

theorem addLink_layer3_eq (s : ManagerState) (src tgt : String) (lt : LinkType)
    (si ti : String) (tm : Int) :
    addLink s src tgt lt LayerType.L3 si ti tm =
      { s with layer3_topology :=
          s.layer3_topology.addEdge src tgt ⟨lt, LayerType.L3, si, ti, tm⟩ } := rfl

theorem addLink_layer4_eq (s : ManagerState) (src tgt : String) (lt : LinkType)
    (si ti : String) (tm : Int) :
    addLink s src tgt lt LayerType.L4 si ti tm = s := rfl

theorem applyRecords_cons (s : ManagerState) (r : RawLink) (l : List RawLink) :
    applyRecords s (r :: l) =
      applyRecords (addLink s r.source r.target r.link_type r.layer
        r.source_interface r.target_interface r.time) l := rfl

theorem applyRecords_layer2_eq (l : List RawLink) (s : ManagerState) :
    (applyRecords s l).layer2_topology =
      (l.filter (fun r => decide (r.layer = LayerType.L2))).foldl
        (fun g r => g.addEdge r.source r.target
          ⟨r.link_type, r.layer, r.source_interface, r.target_interface, r.time⟩)
        s.layer2_topology := by
  induction l generalizing s with
  | nil => rfl
  | cons r rest ih =>
    rw [applyRecords_cons]
    cases hl : r.layer
    case L2 =>
      rw [addLink_layer2_eq, ih,
        List.filter_cons_of_pos (by simp [hl]), List.foldl_cons, hl]
    case L3 =>
      rw [addLink_layer3_eq, ih, List.filter_cons_of_neg (by simp [hl])]
    case L4 =>
      rw [addLink_layer4_eq, ih, List.filter_cons_of_neg (by simp [hl])]

theorem applyRecords_layer3_eq (l : List RawLink) (s : ManagerState) :
    (applyRecords s l).layer3_topology =
      (l.filter (fun r => decide (r.layer = LayerType.L3))).foldl
        (fun g r => g.addEdge r.source r.target
          ⟨r.link_type, r.layer, r.source_interface, r.target_interface, r.time⟩)
        s.layer3_topology := by
  induction l generalizing s with
  | nil => rfl
  | cons r rest ih =>
    rw [applyRecords_cons]
    cases hl : r.layer
    case L2 =>
      rw [addLink_layer2_eq, ih, List.filter_cons_of_neg (by simp [hl])]
    case L3 =>
      rw [addLink_layer3_eq, ih,
        List.filter_cons_of_pos (by simp [hl]), List.foldl_cons, hl]
    case L4 =>
      rw [addLink_layer4_eq, ih, List.filter_cons_of_neg (by simp [hl])]

theorem applyRecords_topology (l : List RawLink) (s : ManagerState) :
    (applyRecords s l).topology = s.topology := by
  induction l generalizing s with
  | nil => rfl
  | cons r rest ih =>
    rw [applyRecords_cons, ih]
    cases hl : r.layer
    case L2 => rw [addLink_layer2_eq]
    case L3 => rw [addLink_layer3_eq]
    case L4 => rw [addLink_layer4_eq]

theorem mem_foldl_addEdge_nodes {G : TopoGraph} {l : List RawLink} {x : String} :
    x ∈ (l.foldl (fun g r => g.addEdge r.source r.target
        ⟨r.link_type, r.layer, r.source_interface, r.target_interface, r.time⟩)
        G).nodes ↔
      x ∈ G.nodes ∨ ∃ r ∈ l, x = r.source ∨ x = r.target := by
  induction l generalizing G with
  | nil => simp
  | cons r rest ih =>
    rw [List.foldl_cons, ih, mem_addEdge_nodes]
    simp only [List.mem_cons]
    constructor
    · rintro ((h | h | h) | ⟨r0, hr0, h⟩)
      · exact Or.inl h
      · exact Or.inr ⟨r, Or.inl rfl, Or.inl h⟩
      · exact Or.inr ⟨r, Or.inl rfl, Or.inr h⟩
      · exact Or.inr ⟨r0, Or.inr hr0, h⟩
    · rintro (h | ⟨r0, (rfl | hr0), h⟩)
      · exact Or.inl (Or.inl h)
      · exact Or.inl (Or.inr h)
      · exact Or.inr ⟨r0, hr0, h⟩

theorem adjB_foldl_addEdge {G : TopoGraph} {l : List RawLink} {a b : String} :
    (l.foldl (fun g r => g.addEdge r.source r.target
        ⟨r.link_type, r.layer, r.source_interface, r.target_interface, r.time⟩)
        G).adjB a b = true ↔
      G.adjB a b = true ∨
        ∃ r ∈ l, sameEdgeB (a, b) (r.source, r.target) = true := by
  induction l generalizing G with
  | nil => simp
  | cons r rest ih =>
    rw [List.foldl_cons, ih, adjB_addEdge]
    simp only [List.mem_cons]
    constructor
    · rintro ((h | h) | ⟨r0, hr0, h⟩)
      · exact Or.inl h
      · exact Or.inr ⟨r, Or.inl rfl, h⟩
      · exact Or.inr ⟨r0, Or.inr hr0, h⟩
    · rintro (h | ⟨r0, (rfl | hr0), h⟩)
      · exact Or.inl (Or.inl h)
      · exact Or.inl (Or.inr h)
      · exact Or.inr ⟨r0, hr0, h⟩

theorem wf_empty {V E : Type} : (Graph.empty : Graph V E).Wf := by
  intro e he
  simp [Graph.empty] at he

theorem wf_addEdge {V E : Type} [DecidableEq V] {G : Graph V E} {u v : V} {d : E}
    (h : G.Wf) : (G.addEdge u v d).Wf := by
  intro e he
  show e.1.1 ∈ (G.addEdge u v d).nodes ∧ e.1.2 ∈ (G.addEdge u v d).nodes
  unfold Graph.addEdge at he
  dsimp only at he
  split_ifs at he with hcond
  · rw [List.mem_map] at he
    obtain ⟨e0, he0, rfl⟩ := he
    constructor
    · rw [mem_addEdge_nodes, addEdge_key]
      exact Or.inl (h e0 he0).1
    · rw [mem_addEdge_nodes, addEdge_key]
      exact Or.inl (h e0 he0).2
  · rw [List.mem_append, List.mem_singleton] at he
    rcases he with he | rfl
    · exact ⟨mem_addEdge_nodes.mpr (Or.inl (h e he).1),
        mem_addEdge_nodes.mpr (Or.inl (h e he).2)⟩
    · exact ⟨mem_addEdge_nodes.mpr (Or.inr (Or.inl rfl)),
        mem_addEdge_nodes.mpr (Or.inr (Or.inr rfl))⟩

theorem wf_foldl_addEdge {G : TopoGraph} {l : List RawLink} (h : G.Wf) :
    (l.foldl (fun g r => g.addEdge r.source r.target
      ⟨r.link_type, r.layer, r.source_interface, r.target_interface, r.time⟩)
      G).Wf := by
  induction l generalizing G with
  | nil => exact h
  | cons r rest ih => exact ih (wf_addEdge h)

theorem exists_endpoint_iff {V E : Type} [DecidableEq V] {G : Graph V E} {x : V} :
    (∃ e ∈ G.edges, x = e.1.1 ∨ x = e.1.2) ↔ ∃ y, G.adjB x y = true := by
  constructor
  · rintro ⟨e, he, (h | h)⟩
    · refine ⟨e.1.2, adjB_iff.mpr ⟨e, he, ?_⟩⟩
      rw [sameEdgeB_iff]
      exact Or.inl ⟨h, rfl⟩
    · refine ⟨e.1.1, adjB_iff.mpr ⟨e, he, ?_⟩⟩
      rw [sameEdgeB_iff]
      exact Or.inr ⟨h, rfl⟩
  · rintro ⟨y, hy⟩
    rw [adjB_iff] at hy
    obtain ⟨e, he, hs⟩ := hy
    rw [sameEdgeB_iff] at hs
    rcases hs with ⟨h1, h2⟩ | ⟨h1, h2⟩
    · exact ⟨e, he, Or.inl h1⟩
    · exact ⟨e, he, Or.inr h1⟩

theorem mem_layer2_nodes_iff {l : List RawLink} {x : String} :
    x ∈ (applyRecords initState l).layer2_topology.nodes ↔
      ∃ r ∈ l, r.layer = LayerType.L2 ∧ (x = r.source ∨ x = r.target) := by
  rw [applyRecords_layer2_eq, mem_foldl_addEdge_nodes]
  simp only [initState, Graph.empty, List.not_mem_nil, false_or, List.mem_filter,
    decide_eq_true_eq]
  constructor
  · rintro ⟨r, ⟨hr, hl⟩, h⟩
    exact ⟨r, hr, hl, h⟩
  · rintro ⟨r, hr, hl, h⟩
    exact ⟨r, ⟨hr, hl⟩, h⟩

theorem adjB_layer2_iff {l : List RawLink} {a b : String} :
    (applyRecords initState l).layer2_topology.adjB a b = true ↔
      ∃ r ∈ l, r.layer = LayerType.L2 ∧
        sameEdgeB (a, b) (r.source, r.target) = true := by
  rw [applyRecords_layer2_eq, adjB_foldl_addEdge]
  simp only [initState, List.mem_filter, decide_eq_true_eq]
  constructor
  · rintro (habs | ⟨r, ⟨hr, hl⟩, h⟩)
    · simp [Graph.adjB, Graph.empty] at habs
    · exact ⟨r, hr, hl, h⟩
  · rintro ⟨r, hr, hl, h⟩
    exact Or.inr ⟨r, ⟨hr, hl⟩, h⟩

theorem mem_layer3_nodes_iff {l : List RawLink} {x : String} :
    x ∈ (applyRecords initState l).layer3_topology.nodes ↔
      ∃ r ∈ l, r.layer = LayerType.L3 ∧ (x = r.source ∨ x = r.target) := by
  rw [applyRecords_layer3_eq, mem_foldl_addEdge_nodes]
  simp only [initState, Graph.empty, List.not_mem_nil, false_or, List.mem_filter,
    decide_eq_true_eq]
  constructor
  · rintro ⟨r, ⟨hr, hl⟩, h⟩
    exact ⟨r, hr, hl, h⟩
  · rintro ⟨r, hr, hl, h⟩
    exact ⟨r, ⟨hr, hl⟩, h⟩

theorem adjB_layer3_iff {l : List RawLink} {a b : String} :
    (applyRecords initState l).layer3_topology.adjB a b = true ↔
      ∃ r ∈ l, r.layer = LayerType.L3 ∧
        sameEdgeB (a, b) (r.source, r.target) = true := by
  rw [applyRecords_layer3_eq, adjB_foldl_addEdge]
  simp only [initState, List.mem_filter, decide_eq_true_eq]
  constructor
  · rintro (habs | ⟨r, ⟨hr, hl⟩, h⟩)
    · simp [Graph.adjB, Graph.empty] at habs
    · exact ⟨r, hr, hl, h⟩
  · rintro ⟨r, hr, hl, h⟩
    exact Or.inr ⟨r, ⟨hr, hl⟩, h⟩

theorem mergeDuplicateLinks_catch (G : TopoGraph) :
    (match mergeDuplicateLinks G with
      | Except.ok t2 => t2
      | Except.error _ => G) = G := by
  unfold mergeDuplicateLinks
  cases hfil : G.edges.filter (fun _ => decide (linkAttrCount > 1)) <;> simp

theorem mergeTopologies_topology (s : ManagerState) :
    (mergeTopologies s).topology =
      (((s.topology.addNodesFrom s.layer2_topology.nodes).addEdgesFrom
          s.layer2_topology.edges).addNodesFrom
          s.layer3_topology.nodes).addEdgesFrom s.layer3_topology.edges :=
  mergeDuplicateLinks_catch _

theorem buildUnified_nodes_iff {l : List RawLink} {x : String} :
    x ∈ (buildUnified l).nodes ↔
      ∃ r ∈ l, (r.layer = LayerType.L2 ∨ r.layer = LayerType.L3) ∧
        (x = r.source ∨ x = r.target) := by
  unfold buildUnified
  rw [mergeTopologies_topology, applyRecords_topology]
  rw [mem_addEdgesFrom_nodes, mem_addNodesFrom, mem_addEdgesFrom_nodes,
    mem_addNodesFrom]
  constructor
  · rintro ((((h0 | h2n) | h2e) | h3n) | h3e)
    · exact absurd h0 (by simp [initState, Graph.empty])
    · obtain ⟨r, hr, hl, h⟩ := mem_layer2_nodes_iff.mp h2n
      exact ⟨r, hr, Or.inl hl, h⟩
    · obtain ⟨y, hy⟩ := exists_endpoint_iff.mp h2e
      obtain ⟨r, hr, hl, hs⟩ := adjB_layer2_iff.mp hy
      rw [sameEdgeB_iff] at hs
      refine ⟨r, hr, Or.inl hl, ?_⟩
      rcases hs with ⟨h1, -⟩ | ⟨h1, -⟩
      · exact Or.inl h1
      · exact Or.inr h1
    · obtain ⟨r, hr, hl, h⟩ := mem_layer3_nodes_iff.mp h3n
      exact ⟨r, hr, Or.inr hl, h⟩
    · obtain ⟨y, hy⟩ := exists_endpoint_iff.mp h3e
      obtain ⟨r, hr, hl, hs⟩ := adjB_layer3_iff.mp hy
      rw [sameEdgeB_iff] at hs
      refine ⟨r, hr, Or.inr hl, ?_⟩
      rcases hs with ⟨h1, -⟩ | ⟨h1, -⟩
      · exact Or.inl h1
      · exact Or.inr h1
  · rintro ⟨r, hr, (hl | hl), h⟩
    · exact Or.inl (Or.inl (Or.inl (Or.inr (mem_layer2_nodes_iff.mpr ⟨r, hr, hl, h⟩))))
    · exact Or.inl (Or.inr (mem_layer3_nodes_iff.mpr ⟨r, hr, hl, h⟩))

theorem buildUnified_adjB_iff {l : List RawLink} {a b : String} :
    (buildUnified l).adjB a b = true ↔
      ∃ r ∈ l, (r.layer = LayerType.L2 ∨ r.layer = LayerType.L3) ∧
        sameEdgeB (a, b) (r.source, r.target) = true := by
  unfold buildUnified
  rw [mergeTopologies_topology, applyRecords_topology]
  rw [adjB_addEdgesFrom, adjB_addNodesFrom, adjB_addEdgesFrom, adjB_addNodesFrom]
  rw [← adjB_iff, ← adjB_iff, adjB_layer2_iff, adjB_layer3_iff]
  constructor
  · rintro ((h0 | ⟨r, hr, hl, h⟩) | ⟨r, hr, hl, h⟩)
    · exact absurd h0 (by simp [initState, Graph.adjB, Graph.empty])
    · exact ⟨r, hr, Or.inl hl, h⟩
    · exact ⟨r, hr, Or.inr hl, h⟩
  · rintro ⟨r, hr, (hl | hl), h⟩
    · exact Or.inl (Or.inr ⟨r, hr, hl, h⟩)
    · exact Or.inr ⟨r, hr, hl, h⟩

/-! ### Family graphs used as concrete instances -/

theorem pathGraphG_wf (n : Nat) : (pathGraphG n).Wf := by
  intro e he
  simp only [pathGraphG, List.mem_map, List.mem_range] at he
  obtain ⟨i, hi, rfl⟩ := he
  simp only [pathGraphG, List.mem_range]
  omega

theorem thetaGraph_wf (k : Nat) : (thetaGraph k).Wf := by
  intro e he
  simp only [thetaGraph, List.mem_append, List.mem_map, List.mem_range] at he
  rcases he with ⟨i, hi, rfl⟩ | ⟨i, hi, rfl⟩ <;>
    simp only [thetaGraph, List.mem_cons, List.mem_map, List.mem_range] <;>
    constructor
  · exact Or.inl trivial
  · exact Or.inr (Or.inr ⟨i, hi, rfl⟩)
  · exact Or.inr (Or.inr ⟨i, hi, rfl⟩)
  · exact Or.inr (Or.inl trivial)

theorem thetaGraph_adj_left {k i : Nat} (hi : i < k) :
    (thetaGraph k).adjB 0 (i + 2) = true := by
  rw [adjB_iff]
  refine ⟨((0, i + 2), ()), ?_, ?_⟩
  · simp only [thetaGraph, List.mem_append, List.mem_map, List.mem_range]
    exact Or.inl ⟨i, hi, rfl⟩
  · rw [sameEdgeB_iff]
    exact Or.inl ⟨rfl, rfl⟩

theorem thetaGraph_adj_right {k i : Nat} (hi : i < k) :
    (thetaGraph k).adjB (i + 2) 1 = true := by
  rw [adjB_iff]
  refine ⟨((i + 2, 1), ()), ?_, ?_⟩
  · simp only [thetaGraph, List.mem_append, List.mem_map, List.mem_range]
    exact Or.inr ⟨i, hi, rfl⟩
  · rw [sameEdgeB_iff]
    exact Or.inl ⟨rfl, rfl⟩

/-! ### Claim theorems -/

/-- C5 (confirmed): update-interval gating.  When less than the configured
update interval has elapsed since the last successful publish,
`update_topology` returns the currently published snapshot unchanged and the
manager state — in particular the `last_update` timestamp — is untouched;
hence two calls within the interval leave the timestamp identical. -/
theorem c5_update_gating :
    ∀ (d2 d3 : ManagerState → ManagerState × Option PyErr) (now : Int)
      (s : ManagerState), now - s.last_update < s.update_interval →
    updateTopology d2 d3 now s = (s, s.topology) := by
  intro d2 d3 now s h
  unfold updateTopology
  rw [if_pos h]

/-- Witness for C5 at a concrete state and clock value. -/
theorem c5_update_gating_witness :
    updateTopology discOk discOk 100 sStateAB = (sStateAB, sStateAB.topology) :=
  c5_update_gating discOk discOk 100 sStateAB (by decide)

/-- C10 (confirmed): a raw link whose layer tag is neither L2 nor L3 (the
`L4` member of the layer enumeration) is silently dropped by `_add_link`:
the state — in particular both layer graphs — is unchanged, no error is
raised (the embedded operation is total), and the link therefore never
appears in the merged unified topology. -/
theorem c10_l4_links_dropped :
    ∀ (s : ManagerState) (source target : String) (lt : LinkType)
      (si ti : String) (now : Int),
    addLink s source target lt LayerType.L4 si ti now = s ∧
    (mergeTopologies (addLink s source target lt LayerType.L4 si ti now)).topology
      = (mergeTopologies s).topology := by
  intro s source target lt si ti now
  exact ⟨rfl, rfl⟩

/-- C9 (corrected, amended claim): `update_topology` never propagates an
exception — every build-step failure is caught by its `except` handler and
the operation always returns a graph — but the returned graph is in every
case the manager's current `self.topology` reference (on failure the cleared
and possibly partially rebuilt graph), not the previously held snapshot. -/
theorem c9_update_never_raises :
    ∀ (d2 d3 : ManagerState → ManagerState × Option PyErr) (now : Int)
      (s : ManagerState),
    (updateTopology d2 d3 now s).2 = (updateTopology d2 d3 now s).1.topology := by
  intro d2 d3 now s
  unfold updateTopology
  split_ifs with h
  · rfl
  · dsimp only
    cases h2 : d2 ⟨Graph.empty, Graph.empty, Graph.empty, s.history,
        s.last_update, s.update_interval⟩ with
    | mk s2 e2 =>
      cases e2 with
      | some e => rfl
      | none =>
        dsimp only
        cases h3 : d3 s2 with
        | mk s3 e3 =>
          cases e3 with
          | some e => rfl
          | none => rfl

/-- C9 counterexample: with a published one-edge snapshot and a failing
discovery step, the update returns the cleared graph, which differs from the
previously held snapshot — refuting the parenthetical "the previously held
one otherwise". -/
theorem c9_counterexample :
    (updateTopology (discFail PyErr.valueError) discOk 4000 sStateCD).2 ≠
      sStateCD.topology := by decide

/-- C1 (corrected, amended claim): there is no atomic publish on failure.
The gate being open, `update_topology` clears the published graph in place
before building; when a discovery step then raises, the handler returns, but
what remains published (and is returned) is the cleared graph — the
previously published snapshot is not preserved.  Only the interval-gate path
leaves the previous snapshot untouched. -/
theorem c1_no_atomic_publish :
    ∀ (d3 : ManagerState → ManagerState × Option PyErr) (e : PyErr) (now : Int)
      (s : ManagerState), s.update_interval ≤ now - s.last_update →
    (updateTopology (discFail e) d3 now s).1.topology = Graph.empty ∧
    (updateTopology (discFail e) d3 now s).2 = Graph.empty := by
  intro d3 e now s h
  unfold updateTopology
  rw [if_neg (not_lt.mpr h)]
  exact ⟨rfl, rfl⟩

/-- Witness for the amended C1 at a concrete nonempty published state. -/
theorem c1_no_atomic_publish_witness :
    (updateTopology (discFail PyErr.runtimeError) discOk 5000 sStateAB).1.topology
        = Graph.empty ∧
    (updateTopology (discFail PyErr.runtimeError) discOk 5000 sStateAB).2
        = Graph.empty :=
  c1_no_atomic_publish discOk PyErr.runtimeError 5000 sStateAB (by decide)

/-- C1 counterexample: a state publishing the nonempty graph `gAB` does not
keep it published when a build step raises — the published graph after the
failed call differs from the previous snapshot (it has been cleared). -/
theorem c1_counterexample :
    (updateTopology (discFail PyErr.runtimeError) discOk 5000 sStateAB).1.topology
      ≠ sStateAB.topology ∧
    sStateAB.topology.edges ≠ [] := by decide

/-- C4 (code_bug): diffing a graph against an identical copy of itself does
yield a Change Record whose five categories are all empty, but a history
entry IS appended for the no-op cycle: `any(changes.values())` is satisfied
by the truthy `timestamp` entry itself.  Evaluated at a concrete one-edge
graph and time 5. -/
theorem c4_diff_self_appends_empty_record :
    (detectTopologyChanges gAB 5 sStateAB).history = [⟨5, [], [], [], [], []⟩] ∧
    (detectTopologyChanges gAB 5 sStateAB).topology = sStateAB.topology := by
  decide

/-- C3 (code_bug): two raw records for the same unordered node pair and layer
with different interface pairs collapse to exactly one edge, but that edge's
attributes are simply the second record's interfaces — the duplicate-merge
pass `_merge_duplicate_links` raises `TypeError` (caught upstream) before
any interface set is built, so the claimed union of interface pairs never
exists. -/
theorem c3_duplicate_link_interfaces_lost :
    buildUnified [rawAB1, rawAB2] =
      ⟨["A", "B"],
        [(("A", "B"), ⟨LinkType.PHYSICAL, LayerType.L2, "eth2", "eth3", 2⟩)]⟩ ∧
    mergeDuplicateLinks (buildUnified [rawAB1, rawAB2]) =
      Except.error PyErr.typeError := by
  exact ⟨by decide, rfl⟩

/-- C2 counterexample: building the unified graph from the same two records
in the two possible orders yields graphs that are not attribute-identical
(the interfaces of the surviving edge differ), even with identical
record timestamps in the two runs apart from record order. -/
theorem c2_counterexample :
    buildUnified [rawAB1, rawAB2] ≠ buildUnified [rawAB2, rawAB1] := by decide

/-- C2 (corrected, amended claim): merge determinism holds only up to edge
identity — for any two orders of the same raw-record set, the unified graphs
have the same node set and the same undirected edge set (per-pair adjacency
agrees), while edge attributes are last-record-wins and therefore
order-dependent. -/
theorem c2_merge_order_node_edge_sets :
    ∀ (l₁ l₂ : List RawLink), l₁.Perm l₂ →
    (∀ x, x ∈ (buildUnified l₁).nodes ↔ x ∈ (buildUnified l₂).nodes) ∧
    (∀ a b, (buildUnified l₁).adjB a b = (buildUnified l₂).adjB a b) := by
  intro l₁ l₂ hperm
  constructor
  · intro x
    rw [buildUnified_nodes_iff, buildUnified_nodes_iff]
    constructor
    · rintro ⟨r, hr, h⟩
      exact ⟨r, hperm.mem_iff.mp hr, h⟩
    · rintro ⟨r, hr, h⟩
      exact ⟨r, hperm.mem_iff.mpr hr, h⟩
  · intro a b
    by_cases hb : (buildUnified l₁).adjB a b = true
    · obtain ⟨r, hr, h⟩ := buildUnified_adjB_iff.mp hb
      rw [hb, buildUnified_adjB_iff.mpr ⟨r, hperm.mem_iff.mp hr, h⟩]
    · have hb2 : ¬ (buildUnified l₂).adjB a b = true := by
        intro hc
        obtain ⟨r, hr, h⟩ := buildUnified_adjB_iff.mp hc
        exact hb (buildUnified_adjB_iff.mpr ⟨r, hperm.mem_iff.mpr hr, h⟩)
      rw [Bool.not_eq_true] at hb hb2
      rw [hb, hb2]

/-- Witness for the amended C2 at the two orders of the two-record set. -/
theorem c2_merge_order_witness :
    ("A" ∈ (buildUnified [rawAB1, rawAB2]).nodes ↔
      "A" ∈ (buildUnified [rawAB2, rawAB1]).nodes) ∧
    (buildUnified [rawAB1, rawAB2]).adjB "A" "B" =
      (buildUnified [rawAB2, rawAB1]).adjB "A" "B" :=
  ⟨(c2_merge_order_node_edge_sets [rawAB1, rawAB2] [rawAB2, rawAB1]
      (List.Perm.swap rawAB2 rawAB1 [])).1 "A",
   (c2_merge_order_node_edge_sets [rawAB1, rawAB2] [rawAB2, rawAB1]
      (List.Perm.swap rawAB2 rawAB1 [])).2 "A" "B"⟩

/-- C6 (corrected, amended claim): query-time failures.  When source and
target are both present but disconnected, `get_path` returns the explicit
no-path result `[]` (the `NetworkXNoPath` handler), and `export_topology`
with an unsupported format returns the error value `None` instead of
raising; however — see the counterexample — an absent endpoint makes
`get_path` propagate `NodeNotFound` rather than return an empty sequence. -/
theorem c6_query_failures :
    ∀ {V E : Type} [_inst : DecidableEq V] (G : Graph V E) (s t : V)
      (H : TopoGraph) (fmt : String),
    (s ∈ G.nodes → t ∈ G.nodes → ¬ Reachable G s t →
      getPath G s t = Except.ok []) ∧
    (fmt ≠ "json" → fmt ≠ "graphml" → exportTopology H fmt = none) := by
  intro V E _inst G s t H fmt
  constructor
  · intro hs ht hnr
    unfold getPath
    rw [if_pos ⟨hs, ht⟩, shortestPath_eq_none_of_not_reachable hnr]
  · intro h1 h2
    unfold exportTopology
    rw [if_neg h1, if_neg h2]

/-- Witness for the amended C6: two present but disconnected nodes give
`ok []`, and an unsupported export format gives `none`. -/
theorem c6_query_failures_witness :
    getPath (⟨["A", "B"], []⟩ : Graph String LinkData) "A" "B" = Except.ok [] ∧
    exportTopology gAB "xml" = none := by
  have h := c6_query_failures (⟨["A", "B"], []⟩ : Graph String LinkData)
    "A" "B" gAB "xml"
  refine ⟨h.1 (by decide) (by decide) ?_, h.2 (by decide) (by decide)⟩
  intro hr
  exact absurd (reachable_no_edges rfl hr) (by decide)

/-- C6 counterexample: an absent endpoint does not give an empty-path
result — the `NodeNotFound` exception escapes `get_path` (only
`NetworkXNoPath` is caught). -/
theorem c6_counterexample :
    getPath gAB "A" "X" = Except.error PyErr.nodeNotFound ∧
    getPath gAB "A" "X" ≠ Except.ok [] := by
  refine ⟨rfl, ?_⟩
  intro hcontra
  rw [show getPath gAB "A" "X" = Except.error PyErr.nodeNotFound from rfl]
    at hcontra
  exact Except.noConfusion hcontra

/-- C7 (confirmed): bridge correctness of the critical-links query.  On the
path graph with `n` nodes there are `n - 1` edges and an edge pair is a
bridge exactly when it is an edge of the graph (so all `n - 1` edges are
returned); on the cycle graph with `n ≥ 3` nodes no pair is a bridge; and
in general a pair is a bridge exactly when it is an edge whose removal
disconnects some previously connected pair of nodes. -/
theorem c7_critical_links_are_bridges :
    (∀ n : Nat, (pathGraphG n).edges.length = n - 1 ∧
      ∀ u v : Nat, IsBridge (pathGraphG n) u v ↔
        (pathGraphG n).adjB u v = true) ∧
    (∀ n : Nat, 3 ≤ n → ∀ u v : Nat, ¬ IsBridge (cycleGraphG n) u v) ∧
    (∀ (V E : Type) [_inst : DecidableEq V] (G : Graph V E) (u v : V),
      IsBridge G u v ↔ G.adjB u v = true ∧
        ∃ a b, Reachable G a b ∧ ¬ Reachable (G.removeEdgeKey (u, v)) a b) := by
  refine ⟨?_, ?_, ?_⟩
  · intro n
    exact ⟨by simp [pathGraphG], fun u v => isBridge_pathGraphG⟩
  · exact fun n hn u v => cycleGraphG_no_bridge hn u v
  · intro V E _inst G u v
    exact isBridge_iff_disconnects G u v

/-- Witness for C7 at the 3-node path graph, the 3-node cycle graph and a
concrete published graph. -/
theorem c7_critical_links_witness :
    (IsBridge (pathGraphG 3) 0 1 ↔ (pathGraphG 3).adjB 0 1 = true) ∧
    ¬ IsBridge (cycleGraphG 3) 0 1 ∧
    (IsBridge gAB "A" "B" ↔ gAB.adjB "A" "B" = true ∧
      ∃ a b, Reachable gAB a b ∧
        ¬ Reachable (gAB.removeEdgeKey ("A", "B")) a b) :=
  ⟨(c7_critical_links_are_bridges.1 3).2 0 1,
   c7_critical_links_are_bridges.2.1 3 (by decide) 0 1,
   c7_critical_links_are_bridges.2.2 String LinkData gAB "A" "B"⟩

/-- C8 (corrected, amended claim): the redundant-paths query performs no
bounding at all.  For any graph whose edge endpoints are registered nodes,
it returns exactly the simple paths between source and target — every
simple path appears and nothing else — and an absent endpoint yields `[]`;
no truncation ever occurs (see the counterexample for unboundedness). -/
theorem c8_redundant_paths_exact :
    ∀ {V E : Type} [_inst : DecidableEq V] (G : Graph V E) (s t : V)
      (p : List V), G.Wf →
    (p ∈ getRedundantPaths G s t ↔
      s ∈ G.nodes ∧ t ∈ G.nodes ∧ IsSimplePath G s t p) := by
  intro V E _inst G s t p hWf
  exact mem_getRedundantPaths_iff hWf

/-- Witness for the amended C8 at the 3-node path graph. -/
theorem c8_redundant_paths_witness :
    [0, 1, 2] ∈ getRedundantPaths (pathGraphG 3) 0 2 ↔
      0 ∈ (pathGraphG 3).nodes ∧ 2 ∈ (pathGraphG 3).nodes ∧
        IsSimplePath (pathGraphG 3) 0 2 [0, 1, 2] :=
  c8_redundant_paths_exact (pathGraphG 3) 0 2 [0, 1, 2] (pathGraphG_wf 3)

/-- C8 counterexample: no configured bound can cap the query.  For every
would-be bound `b`, the theta graph with `b + 1` middle nodes returns more
than `b` paths, and the path graph on `b + 2` nodes returns a path longer
than `b` — so neither a maximum result count nor a maximum path length is
enforced, and nothing is ever truncated. -/
theorem c8_counterexample : ¬ ∃ b, RedundantPathsBounded b := by
  rintro ⟨b, hb | hb⟩
  · have hcount := hb (thetaGraph (b + 1)) 0 1
    have hpaths : ∀ i, i < b + 1 →
        [0, i + 2, 1] ∈ getRedundantPaths (thetaGraph (b + 1)) 0 1 := by
      intro i hi
      rw [mem_getRedundantPaths_iff (thetaGraph_wf (b + 1))]
      refine ⟨by simp [thetaGraph], by simp [thetaGraph], rfl, rfl, ?_, ?_⟩
      · rw [List.chain'_cons, List.chain'_pair]
        exact ⟨thetaGraph_adj_left hi, thetaGraph_adj_right hi⟩
      · simp [List.nodup_cons]
    have hsub : ((List.range (b + 1)).map (fun i => [0, i + 2, 1])) ⊆
        getRedundantPaths (thetaGraph (b + 1)) 0 1 := by
      intro p hp
      rw [List.mem_map] at hp
      obtain ⟨i, hi, rfl⟩ := hp
      exact hpaths i (List.mem_range.mp hi)
    have hnd : ((List.range (b + 1)).map (fun i => [0, i + 2, 1])).Nodup := by
      refine List.Nodup.map ?_ (List.nodup_range (b + 1))
      intro i j hij
      simp only [List.cons.injEq, and_true] at hij
      omega
    have hle := List.Subperm.length_le (List.subperm_of_subset hnd hsub)
    rw [List.length_map, List.length_range] at hle
    omega
  · have hmem : ladder 0 (b + 1) ∈
        getRedundantPaths (pathGraphG (b + 2)) 0 (b + 1) := by
      rw [mem_getRedundantPaths_iff (pathGraphG_wf (b + 2))]
      refine ⟨?_, ?_, ladder_head? 0 (b + 1), ?_, ?_, ladder_nodup 0 (b + 1)⟩
      · simp [pathGraphG, List.mem_range]
      · simp [pathGraphG, List.mem_range]
      · rw [ladder_getLast?, Nat.zero_add]
      · exact chain'_ladder (pathGraphG (b + 2)) 0 (b + 1)
          (fun j hj1 hj2 => adjB_pathGraphG_iff.mpr (Or.inl ⟨rfl, by omega⟩))
    have hlen := hb (pathGraphG (b + 2)) 0 (b + 1) (ladder 0 (b + 1)) hmem
    rw [ladder_length] at hlen
    omega
